import Mathlib

/-!
# CRC16 of the IM871A WMBUS dongle (`src/main.c`)

Shallow embedding of the two working checksum routines `CRC16_Calc`
(table driven) and `CRC16_Calc_no_table` (bit by bit), the lookup table,
the sample frames of the driver, and the variant `CRC16_original`.

Conventions of the embedding:
* a `uint8_t` / `uint16_t` value is a `Nat`; an assignment to such a variable
  reduces modulo `2^8` / `2^16` explicitly, unless its right-hand side is masked;
* a buffer `uint8_t *data` is the `List Nat` of the bytes that can be read from
  the pointer on; reading past its end, or indexing the table outside its
  entries, makes the routine return `none`;
* a `while (n--)` loop is a structural recursion on the counter.
-/

namespace CRC16

/-! ## Constants and data of the source -/

/-- The macro `CRC16_POLY`, `0x8408`. -/
def CRC16_POLY : Nat := 0x8408

/-- The macro `CRC16_INIT_VALUE`, `0xFFFF`. -/
def CRC16_INIT_VALUE : Nat := 0xFFFF

/-- A C string literal used as initialiser of a byte array: the character codes
followed by the terminating NUL. -/
def cString (s : String) : List Nat :=
  s.toList.map Char.toNat ++ [0]

/-- The array `uint8_t payload[8][85]`: the eight sample frames of the driver, each of 84
characters and the terminating NUL. -/
def payload : List (List Nat) :=
  [cString ("820327442d2c5768663230028d20cb103407201d82040f26a7e808ff3449f9e9d2e4b28bd7e7c6f1c6df"),
   cString ("820327442d2c5768663230028d20cd12340720519df247ff65e751662a300bc4e5c67da86477f0182637"),
   cString ("820327442d2c5768663230028d206972dd032089aa2c0a75352edf4b64a7b908470ba6171c89e52aab8a"),
   cString ("820327442d2c5768663230028d2086f0dd0320368763cbae145d5f6c56d0afad5f369db1e22a7e6311df"),
   cString ("820327442d2c5768663230028d2076b0dd0320c872a70560f4faef03685bcac1ac8fca34cb3ef0dbacf1"),
   cString ("820327442d2c5768663230028d2079b3dd032072e1bc19a9d337d17a731fcea7733abcaa002ca6e33478"),
   cString ("820327442d2c5768663230028d207ed0dd032008a6f44c44320b0e636f694819e91b2a5f2fb1dc753191"),
   cString ("820327442d2c5768663230028d2083e1dd0320d4e65337143ba7621f5ebf580642d40fb7d66c45dd4e19")]

/-- The array `uint8_t long_payload[]`: 96 characters and the terminating NUL. -/
def long_payload : List Nat :=
  cString ("82032d442d2c5768663230028d207cc2dd0320f8325c5952304521c530f237b6ee19e4cd7d6778f660152192a4751a46")

/-- The table `const uint16_t CRC16_Table[]`, its entries in the order of the source. -/
def CRC16_Table : List Nat :=
  [
   0x0000, 0x1189, 0x2312, 0x329B, 0x4624, 0x57AD, 0x6536, 0x74BF,
   0x8C48, 0x9DC1, 0xAF5A, 0xBED3, 0xCA6C, 0xDBE5, 0xE97E, 0xF8F7,
   0x1081, 0x0108, 0x3393, 0x221A, 0x56A5, 0x472C, 0x75B7, 0x643E,
   0x9CC9, 0x8D40, 0xBFDB, 0xAE52, 0xDAED, 0xCB64, 0xF9FF, 0xE876,
   0x2102, 0x308B, 0x0210, 0x1399, 0x6726, 0x76AF, 0x4434, 0x55BD,
   0xAD4A, 0xBCC3, 0x8E58, 0x9FD1, 0xEB6E, 0xFAE7, 0xC87C, 0xD9F5,
   0x3183, 0x200A, 0x1291, 0x0318, 0x77A7, 0x662E, 0x54B5, 0x453C,
   0xBDCB, 0xAC42, 0x9ED9, 0x8F50, 0xFBEF, 0xEA66, 0xD8FD, 0xC974,
   0x4204, 0x538D, 0x6116, 0x709F, 0x0420, 0x15A9, 0x2732, 0x36BB,
   0xCE4C, 0xDFC5, 0xED5E, 0xFCD7, 0x8868, 0x99E1, 0xAB7A, 0xBAF3,
   0x5285, 0x430C, 0x7197, 0x601E, 0x14A1, 0x0528, 0x37B3, 0x263A,
   0xDECD, 0xCF44, 0xFDDF, 0xEC56, 0x98E9, 0x8960, 0xBBFB, 0xAA72,
   0x6306, 0x728F, 0x4014, 0x519D, 0x2522, 0x34AB, 0x0630, 0x17B9,
   0xEF4E, 0xFEC7, 0xCC5C, 0xDDD5, 0xA96A, 0xB8E3, 0x8A78, 0x9BF1,
   0x7387, 0x620E, 0x5095, 0x411C, 0x35A3, 0x242A, 0x16B1, 0x0738,
   0xFFCF, 0xEE46, 0xDCDD, 0xCD54, 0xB9EB, 0xA862, 0x9AF9, 0x8B70,
   0x8408, 0x9581, 0xA71A, 0xB693, 0xC22C, 0xD3A5, 0xE13E, 0xF0B7,
   0x0840, 0x19C9, 0x2B52, 0x3ADB, 0x4E64, 0x5FED, 0x6D76, 0x7CFF,
   0x9489, 0x8500, 0xB79B, 0xA612, 0xD2AD, 0xC324, 0xF1BF, 0xE036,
   0x18C1, 0x0948, 0x3BD3, 0x2A5A, 0x5EE5, 0x4F6C, 0x7DF7, 0x6C7E,
   0xA50A, 0xB483, 0x8618, 0x9791, 0xE32E, 0xF2A7, 0xC03C, 0xD1B5,
   0x2942, 0x38CB, 0x0A50, 0x1BD9, 0x6F66, 0x7EEF, 0x4C74, 0x5DFD,
   0xB58B, 0xA402, 0x9699, 0x8710, 0xF3AF, 0xE226, 0xD0BD, 0xC134,
   0x39C3, 0x284A, 0x1AD1, 0x0B58, 0x7FE7, 0x6E6E, 0x5CF5, 0x4D7C,
   0xC60C, 0xD785, 0xE51E, 0xF497, 0x8028, 0x91A1, 0xA33A, 0xB2B3,
   0x4A44, 0x5BCD, 0x6956, 0x78DF, 0x0C60, 0x1DE9, 0x2F72, 0x3EFB,
   0xD68D, 0xC704, 0xF59F, 0xE416, 0x90A9, 0x8120, 0xB3BB, 0xA232,
   0x5AC5, 0x4B4C, 0x79D7, 0x685E, 0x1CE1, 0x0D68, 0x3FF3, 0x2E7A,
   0xE70E, 0xF687, 0xC41C, 0xD595, 0xA12A, 0xB0A3, 0x8238, 0x93B1,
   0x6B46, 0x7ACF, 0x4854, 0x59DD, 0x2D62, 0x3CEB, 0x0E70, 0x1FF9,
   0xF78F, 0xE606, 0xD49D, 0xC514, 0xB1AB, 0xA022, 0x92B9, 0x8330,
   0x7BC7, 0x6A4E, 0x58D5, 0x495C, 0x3DE3, 0x2C6A, 0x1EF1, 0x0F78
  ]

/-! ## Machine arithmetic -/

/-- Conversion of a C `int` to `uint8_t` (reduction modulo 256). -/
def toU8 (z : Int) : Nat := (z % 256).toNat

/-- Conversion of a C `int` to `uint16_t` (reduction modulo 65536). -/
def toU16 (z : Int) : Nat := (z % 65536).toNat

/-- The `strlen` of the C library: the number of bytes before the first NUL. -/
def strlen : List Nat → Nat
  | [] => 0
  | c :: rest => if c = 0 then 0 else strlen rest + 1

/-! ## Hex pair decoding (lines 133-138 and 157-162, identical in both routines) -/

/-- The expression `(*data >= 'A') ? (*data - 'A' + 10) : (*data - '0')` stored in a `uint8_t`:
the subtraction is done on `int` and the result converted to `uint8_t`. -/
def hexNibble (c : Nat) : Nat :=
  if c ≥ 65 then toU8 ((c : Int) - 65 + 10) else toU8 ((c : Int) - 48)

/-- The byte `Data` assembled from the two characters of a pair:
`Data = (hx1 << 4) & 0xFF; Data |= hx2 & 0xF;`. -/
def assembleByte (c1 c2 : Nat) : Nat :=
  let hx1 := hexNibble c1
  let hx2 := hexNibble c2
  let Data := (hx1 <<< 4) &&& 0xFF
  Data ||| (hx2 &&& 0xF)

/-! ## `CRC16_Calc` -/

/-- Line 140, `crc = (crc >> 8) ^ CRC16_Table[(crc ^ Data) & 0x00FF];`: the new value
of the `uint16_t` register, `none` when the index is not an entry of the table. -/
def tableStep (crc Data : Nat) : Option Nat :=
  match CRC16_Table[(crc ^^^ Data) &&& 0x00FF]? with
  | some t => some (((crc >>> 8) ^^^ t) % 65536)
  | none => none

/-- The `while (length--)` loop of `CRC16_Calc`: `n` is the value of `length`
tested by the loop, the list is what `data` points at, `crc` the register. -/
def CRC16_Calc_loop : Nat → List Nat → Nat → Option Nat
  | 0, _, crc => some crc
  | n + 1, c1 :: c2 :: rest, crc =>
    let Data := assembleByte c1 c2
    (tableStep crc Data).bind (CRC16_Calc_loop n rest)
  | _ + 1, _, _ => none

/-- The routine `uint16_t CRC16_Calc(uint8_t *data, uint16_t length, uint16_t initVal)`:
`crc = initVal; length /= 2;`, the loop, `return crc;`. -/
def CRC16_Calc (data : List Nat) (length initVal : Nat) : Option Nat :=
  CRC16_Calc_loop (length / 2) data initVal

/-! ## `CRC16_Calc_no_table` -/

/-- The body of the inner loop, as far as `crc` goes:
`if ((Data & 1) ^ (crc & 1)) crc = (crc >> 1) ^ CRC16_POLY; else crc >>= 1;`. -/
def bitStep (Data crc : Nat) : Nat :=
  if (Data &&& 1) ^^^ (crc &&& 1) ≠ 0 then ((crc >>> 1) ^^^ CRC16_POLY) % 65536
  else (crc >>> 1) % 65536

/-- The inner `while (bits--)` loop: `bits` is the value tested by the loop; each
pass updates `crc` from the lowest bit of `Data` and then does `Data >>= 1`. -/
def bitLoop : Nat → Nat → Nat → Nat
  | 0, _, crc => crc
  | bits + 1, Data, crc => bitLoop bits ((Data >>> 1) % 256) (bitStep Data crc)

/-- The outer `while (length--)` loop of `CRC16_Calc_no_table`. -/
def CRC16_Calc_no_table_loop : Nat → List Nat → Nat → Option Nat
  | 0, _, crc => some crc
  | n + 1, c1 :: c2 :: rest, crc =>
    let Data := assembleByte c1 c2
    CRC16_Calc_no_table_loop n rest (bitLoop 8 Data crc)
  | _ + 1, _, _ => none

/-- The routine
`uint16_t CRC16_Calc_no_table(uint8_t *data, uint16_t length, uint16_t initVal)`:
`crc = initVal; length /= 2;`, the loop, `return crc;`. -/
def CRC16_Calc_no_table (data : List Nat) (length initVal : Nat) : Option Nat :=
  CRC16_Calc_no_table_loop (length / 2) data initVal

/-! ## `CRC16_original` -/

/-- The body of the inner loop of `CRC16_original`:
`if ((byte & 1) ^ (crc & 1)) crc = (crc >> 1) & CRC16_POLY; else crc >>= 1;`. -/
def bitStep_original (byte crc : Nat) : Nat :=
  if (byte &&& 1) ^^^ (crc &&& 1) ≠ 0 then ((crc >>> 1) &&& CRC16_POLY) % 65536
  else (crc >>> 1) % 65536

/-- The inner `while (bits--)` loop of `CRC16_original`. -/
def bitLoop_original : Nat → Nat → Nat → Nat
  | 0, _, crc => crc
  | bits + 1, byte, crc =>
    bitLoop_original bits ((byte >>> 1) % 256) (bitStep_original byte crc)

/-- The outer loop of `CRC16_original`: one raw byte per iteration. -/
def CRC16_original_loop : Nat → List Nat → Nat → Option Nat
  | 0, _, crc => some crc
  | n + 1, byte :: rest, crc => CRC16_original_loop n rest (bitLoop_original 8 byte crc)
  | _ + 1, [], _ => none

/-- The routine `uint16_t CRC16_original(uint8_t *data, uint16_t length, uint16_t initVal)`:
`length` counts raw bytes here, there is no hex decoding. -/
def CRC16_original (data : List Nat) (length initVal : Nat) : Option Nat :=
  CRC16_original_loop length data initVal

/-! ## The driver -/

/-- The assignment `calc = ~x` with `calc` a `uint16_t`: complement on `int`, then
conversion to 16 bits. -/
def not16 (x : Nat) : Nat := toU16 (-(x : Int) - 1)

/-- The nine checksums printed by `main` for the table routine:
`~CRC16_Calc(payload[i], strlen(payload[i]), CRC16_INIT_VALUE)` for `i = 0..7`, then
`~CRC16_Calc(long_payload, strlen(long_payload), CRC16_INIT_VALUE)`. -/
def main_table : List (Option Nat) :=
  payload.map (fun p => (CRC16_Calc p (strlen p % 65536) CRC16_INIT_VALUE).map not16) ++
    [(CRC16_Calc long_payload (strlen long_payload % 65536) CRC16_INIT_VALUE).map not16]

/-- The nine checksums printed by `main` for the routine without table:
`~CRC16_Calc_no_table(payload[i], strlen(payload[1]), CRC16_INIT_VALUE)` for `i = 0..7`
(the length is taken from `payload[1]` in every pass), then
`~CRC16_Calc_no_table(long_payload, strlen(long_payload), CRC16_INIT_VALUE)`. -/
def main_no_table : List (Option Nat) :=
  payload.map (fun p =>
      (CRC16_Calc_no_table p (strlen (payload.getD 1 []) % 65536) CRC16_INIT_VALUE).map
        not16) ++
    [(CRC16_Calc_no_table long_payload (strlen long_payload % 65536) CRC16_INIT_VALUE).map
      not16]

/-! ## Notions of the specification, used to state the properties -/

/-- A 16-bit value with its two bytes exchanged: what the two bytes of a checksum
field, sent low byte first, spell when they are read as one hexadecimal number. -/
def swapBytes (x : Nat) : Nat := (x % 256) * 256 + x / 256 % 256

/-- First known vector of the specification (82 characters). -/
def spec_frame_1 : List Nat :=
  cString ("0327442d2c5768663230028d20cb103407201d82040f26a7e808ff3449f9e9d2e4b28bd7e7c6f1c6df")

/-- Second known vector of the specification (82 characters). -/
def spec_frame_2 : List Nat :=
  cString ("0327442d2c5768663230028d20cd12340720519df247ff65e751662a300bc4e5c67da86477f0182637")

/-- The long known vector of the specification (94 characters). -/
def spec_long_frame : List Nat :=
  cString ("032d442d2c5768663230028d207cc2dd0320f8325c5952304521c530f237b6ee19e4cd7d6778f660152192a4751a46")

/-- The hex encoding of the ASCII string `123456789`, input of the standard check value. -/
def check_input : List Nat := cString ("313233343536373839")

/-- The bytes `Data` assembled by the first `n` passes of either loop, one per pair
of characters. -/
def decodePairs : Nat → List Nat → List Nat
  | 0, _ => []
  | n + 1, c1 :: c2 :: rest => assembleByte c1 c2 :: decodePairs n rest
  | _ + 1, _ => []

/-- The `hex_decode(input, byte_count)` of the specification: the caller passes the
character length, and `byte_count / 2` pairs are consumed, each giving one byte. -/
def hex_decode (input : List Nat) (count : Nat) : List Nat :=
  decodePairs (count / 2) input

/-- The per-byte update of the specification:
`crc = (crc >> 8) XOR table[(crc XOR byte) & 0xFF]`. -/
def tableUpdate (crc byte : Nat) : Nat :=
  (crc >>> 8) ^^^ CRC16_Table.getD ((crc ^^^ byte) &&& 0xFF) 0

/-- The `crc16_table(bytes, init)` of the specification: the bytes are processed left
to right, one register update per byte. -/
def crc16_table (bytes : List Nat) (init : Nat) : Nat :=
  bytes.foldl tableUpdate init

/-- The value of a hexadecimal digit given by its character code: `'0'..'9'`,
`'A'..'F'` or `'a'..'f'` (and `0` for any other character). -/
def hexValue (c : Nat) : Nat :=
  if 48 ≤ c ∧ c ≤ 57 then c - 48
  else if 65 ≤ c ∧ c ≤ 70 then c - 55
  else if 97 ≤ c ∧ c ≤ 102 then c - 87
  else 0

/-- A character in `'0'..'9'` or `'A'..'F'`. -/
def isUpperHexDigit (c : Nat) : Prop := (48 ≤ c ∧ c ≤ 57) ∨ (65 ≤ c ∧ c ≤ 70)

instance instDecidableIsUpperHexDigit (c : Nat) : Decidable (isUpperHexDigit c) :=
  inferInstanceAs (Decidable ((48 ≤ c ∧ c ≤ 57) ∨ (65 ≤ c ∧ c ≤ 70)))

/-- A character in `'a'..'f'`. -/
def isLowerHexLetter (c : Nat) : Prop := 97 ≤ c ∧ c ≤ 102

instance instDecidableIsLowerHexLetter (c : Nat) : Decidable (isLowerHexLetter c) :=
  inferInstanceAs (Decidable (97 ≤ c ∧ c ≤ 102))

/-- A hexadecimal digit of either case. -/
def isHexDigit (c : Nat) : Prop := isUpperHexDigit c ∨ isLowerHexLetter c

instance instDecidableIsHexDigit (c : Nat) : Decidable (isHexDigit c) :=
  inferInstanceAs (Decidable (isUpperHexDigit c ∨ isLowerHexLetter c))

/-- The bytes a string of hexadecimal digits denotes: one byte per pair, the first
digit of a pair being the high nibble. -/
def hexBytes : List Nat → List Nat
  | c1 :: c2 :: rest => (16 * hexValue c1 + hexValue c2) :: hexBytes rest
  | _ => []

/-- The upper-case hexadecimal digit of a nibble. -/
def hexDigitUpper (n : Nat) : Nat := if n < 10 then 48 + n else 55 + n

/-- The lower-case hexadecimal digit of a nibble. -/
def hexDigitLower (n : Nat) : Nat := if n < 10 then 48 + n else 87 + n

/-- The two upper-case hexadecimal digits of a byte, high nibble first. -/
def hexPairUpper (b : Nat) : List Nat := [hexDigitUpper (b / 16), hexDigitUpper (b % 16)]

/-- The two lower-case hexadecimal digits of a byte, high nibble first. -/
def hexPairLower (b : Nat) : List Nat := [hexDigitLower (b / 16), hexDigitLower (b % 16)]

/-- The nibble `n(c)` of a character as the specification words it: `c - 'A' + 10` if
`c >= 'A'`, and `c - '0'` otherwise, computed modulo 256. -/
def specNibble (c : Nat) : Nat :=
  if c ≥ 65 then (c - 65 + 10) % 256 else (c + 256 - 48) % 256

/-- The register the bitwise algorithm of `CRC16_Calc_no_table` reaches on raw bytes: the
eight passes of its bit loop for each byte, left to right. -/
def crc16_bitwise (bytes : List Nat) (init : Nat) : Nat :=
  bytes.foldl (fun crc b => bitLoop 8 b crc) init

/-! ## Bounds -/

theorem hexNibble_lt (c : Nat) : hexNibble c < 256 := by
  unfold hexNibble toU8
  split <;> omega

theorem assembleByte_eq (c1 c2 : Nat) :
    assembleByte c1 c2 = 16 * (hexNibble c1 % 16) + hexNibble c2 % 16 := by
  have h1 : (hexNibble c1 <<< 4) &&& 0xFF = 2 ^ 4 * (hexNibble c1 % 16) := by
    have : (0xFF : Nat) = 2 ^ 8 - 1 := by norm_num
    rw [this, Nat.and_pow_two_sub_one_eq_mod, Nat.shiftLeft_eq]
    omega
  have h2 : hexNibble c2 &&& 0xF = hexNibble c2 % 16 := by
    have : (0xF : Nat) = 2 ^ 4 - 1 := by norm_num
    rw [this, Nat.and_pow_two_sub_one_eq_mod]
  have h3 : hexNibble c2 % 16 < 2 ^ 4 := by omega
  show (hexNibble c1 <<< 4) &&& 0xFF ||| (hexNibble c2 &&& 0xF) = _
  rw [h1, h2, ← Nat.mul_add_lt_is_or h3]

theorem assembleByte_lt (c1 c2 : Nat) : assembleByte c1 c2 < 256 := by
  rw [assembleByte_eq]; omega

theorem xor_lt_65536 {a b : Nat} (ha : a < 65536) (hb : b < 65536) : a ^^^ b < 65536 :=
  Nat.xor_lt_two_pow (n := 16) ha hb

theorem bitStep_lt (D c : Nat) : bitStep D c < 65536 := by
  unfold bitStep
  split <;> exact Nat.mod_lt _ (by norm_num)

theorem bitLoop_lt (k D c : Nat) (hc : c < 65536) : bitLoop k D c < 65536 := by
  induction k generalizing D c with
  | zero => simpa [bitLoop] using hc
  | succ k ih => exact ih _ _ (bitStep_lt D c)

/-! ## The bit loop is linear over exclusive or -/

/-- For a 16-bit register the reductions modulo `2^16` in `bitStep` do nothing, and the
step only depends on the exclusive or of register and data. -/
theorem bitStep_eq {D c : Nat} (hc : c < 65536) :
    bitStep D c = (c >>> 1) ^^^ (if (c ^^^ D) % 2 = 1 then CRC16_POLY else 0) := by
  have h1 : c >>> 1 < 65536 := by rw [Nat.shiftRight_eq_div_pow]; omega
  have h2 : CRC16_POLY < 65536 := by decide
  have h3 : (c >>> 1) ^^^ CRC16_POLY < 65536 := xor_lt_65536 h1 h2
  have h4 : ((D &&& 1) ^^^ (c &&& 1) ≠ 0) ↔ (c ^^^ D) % 2 = 1 := by
    rw [Nat.and_one_is_mod, Nat.and_one_is_mod, Nat.xor_mod_two_eq_one]
    have hd : D % 2 = 0 ∨ D % 2 = 1 := by omega
    have hc2 : c % 2 = 0 ∨ c % 2 = 1 := by omega
    rcases hd with hd | hd <;> rcases hc2 with hc2 | hc2 <;> simp [hd, hc2]
  unfold bitStep
  by_cases h : (c ^^^ D) % 2 = 1
  · rw [if_pos (h4.mpr h), if_pos h, Nat.mod_eq_of_lt h3]
  · rw [if_neg (fun h5 => h (h4.mp h5)), if_neg h, Nat.xor_zero, Nat.mod_eq_of_lt h1]

theorem shiftRight_one_xor (a b : Nat) : (a ^^^ b) >>> 1 = (a >>> 1) ^^^ (b >>> 1) := by
  rw [Nat.shiftRight_eq_div_pow, Nat.shiftRight_eq_div_pow, Nat.shiftRight_eq_div_pow, pow_one,
    Nat.xor_div_two]

theorem xor_xor_xor_comm (a b c d : Nat) : (a ^^^ b) ^^^ (c ^^^ d) = (a ^^^ c) ^^^ (b ^^^ d) := by
  rw [Nat.xor_assoc, Nat.xor_assoc, ← Nat.xor_assoc b c d, Nat.xor_comm b c, Nat.xor_assoc c b d]

/-- One step with data `D` is one step with data `0` on `c ^^^ D`, up to the shifted data. -/
theorem bitStep_xor_data {D c : Nat} (hc : c < 65536) (hD : D < 65536) :
    bitStep D c ^^^ (D >>> 1) = bitStep 0 (c ^^^ D) := by
  rw [bitStep_eq hc, bitStep_eq (xor_lt_65536 hc hD), Nat.xor_zero, shiftRight_one_xor,
    Nat.xor_assoc, Nat.xor_assoc, Nat.xor_comm _ (D >>> 1)]

/-- The step with data `0` distributes over exclusive or. -/
theorem bitStep_zero_xor {a b : Nat} (ha : a < 65536) (hb : b < 65536) :
    bitStep 0 (a ^^^ b) = bitStep 0 a ^^^ bitStep 0 b := by
  rw [bitStep_eq ha, bitStep_eq hb, bitStep_eq (xor_lt_65536 ha hb), Nat.xor_zero, Nat.xor_zero,
    Nat.xor_zero, shiftRight_one_xor, xor_xor_xor_comm]
  congr 1
  have hx : (a ^^^ b) % 2 = (a + b) % 2 := Nat.xor_mod_two_eq
  rcases Nat.mod_two_eq_zero_or_one a with h1 | h1 <;>
    rcases Nat.mod_two_eq_zero_or_one b with h2 | h2 <;>
    simp [hx, Nat.add_mod, h1, h2]

theorem bitLoop_zero_data (k c : Nat) : bitLoop (k + 1) 0 c = bitLoop k 0 (bitStep 0 c) := rfl

/-- Moving the data into the register: `k` steps on `(D, c)` are `k` steps on
`(0, c ^^^ D)`, up to what is left of the data. -/
theorem bitLoop_xor_data (k : Nat) : ∀ {D c : Nat}, c < 65536 → D < 256 →
    bitLoop k D c = bitLoop k 0 (c ^^^ D) ^^^ (D >>> k) := by
  induction k with
  | zero =>
    intro D c _ _
    show c = (c ^^^ D) ^^^ (D >>> 0)
    rw [Nat.shiftRight_zero, Nat.xor_assoc, Nat.xor_self, Nat.xor_zero]
  | succ k ih =>
    intro D c hc hD
    have hD1 : D >>> 1 < 256 := by rw [Nat.shiftRight_eq_div_pow]; omega
    show bitLoop k ((D >>> 1) % 256) (bitStep D c) = _
    rw [Nat.mod_eq_of_lt hD1, ih (bitStep_lt D c) hD1, bitStep_xor_data hc (by omega),
      bitLoop_zero_data, ← Nat.shiftRight_add, Nat.add_comm 1 k]

theorem bitLoop_zero_xor (k : Nat) : ∀ {a b : Nat}, a < 65536 → b < 65536 →
    bitLoop k 0 (a ^^^ b) = bitLoop k 0 a ^^^ bitLoop k 0 b := by
  induction k with
  | zero => intro a b _ _; rfl
  | succ k ih =>
    intro a b ha hb
    rw [bitLoop_zero_data, bitLoop_zero_data, bitLoop_zero_data, bitStep_zero_xor ha hb,
      ih (bitStep_lt 0 a) (bitStep_lt 0 b)]

/-- With data `0`, `k` steps on a register whose `k` low bits are clear only shift. -/
theorem bitLoop_zero_shiftLeft (k : Nat) : ∀ {a : Nat}, a <<< k < 65536 →
    bitLoop k 0 (a <<< k) = a := by
  induction k with
  | zero => intro a _; rfl
  | succ k ih =>
    intro a ha
    have e : (a <<< (k + 1)) >>> 1 = a <<< k := by
      rw [Nat.shiftLeft_eq, Nat.shiftLeft_eq, Nat.shiftRight_eq_div_pow, pow_succ, ← Nat.mul_assoc]
      omega
    have e2 : (a <<< (k + 1)) % 2 = 0 := by
      rw [Nat.shiftLeft_eq, pow_succ, ← Nat.mul_assoc]; omega
    have hlt : a <<< k < 65536 := by
      rw [Nat.shiftLeft_eq] at ha ⊢
      rw [pow_succ, ← Nat.mul_assoc] at ha
      omega
    rw [bitLoop_zero_data, bitStep_eq ha, Nat.xor_zero, if_neg (by omega), Nat.xor_zero, e]
    exact ih hlt

/-- A number is its high part (from bit 8 on) exclusive-or its low byte. -/
theorem split_low_byte (x : Nat) : x = ((x >>> 8) <<< 8) ^^^ (x % 256) := by
  apply Nat.eq_of_testBit_eq
  intro i
  have e : x % 256 = x % 2 ^ 8 := by norm_num
  rw [Nat.testBit_xor, Nat.testBit_shiftLeft, Nat.testBit_shiftRight, e, Nat.testBit_mod_two_pow]
  by_cases hi : i < 8
  · have hi2 : ¬ 8 ≤ i := by omega
    simp [hi, hi2]
  · have : 8 + (i - 8) = i := by omega
    simp [hi, this]
    intro _
    omega

/-- Eight steps with data `0`: the high byte moves down, the low byte goes through the
polynomial division. -/
theorem bitLoop_eight_split {x : Nat} (hx : x < 65536) :
    bitLoop 8 0 x = (x >>> 8) ^^^ bitLoop 8 0 (x % 256) := by
  have hhi : (x >>> 8) <<< 8 < 65536 := by
    rw [Nat.shiftLeft_eq, Nat.shiftRight_eq_div_pow]; omega
  have hlo : x % 256 < 65536 := by omega
  conv_lhs => rw [split_low_byte x]
  rw [bitLoop_zero_xor 8 hhi hlo, bitLoop_zero_shiftLeft 8 hhi]

/-! ## The table -/

/-- Every index below 256 is an entry of the table, and the entry is what eight steps of
the bit loop make of the index (data `0`). -/
theorem table_entry : ∀ i < 256, CRC16_Table[i]? = some (bitLoop 8 0 i) := by
  decide!

theorem and_255 (x : Nat) : x &&& 0x00FF = x % 256 := by
  have : (0x00FF : Nat) = 2 ^ 8 - 1 := by norm_num
  rw [this, Nat.and_pow_two_sub_one_eq_mod]

theorem shiftRight_eight_lt {c : Nat} (hc : c < 65536) : c >>> 8 < 256 := by
  rw [Nat.shiftRight_eq_div_pow]; omega

/-- The table update of line 140 is the eight passes of the bit loop. -/
theorem tableStep_eq_bitLoop {c D : Nat} (hc : c < 65536) (hD : D < 256) :
    tableStep c D = some (bitLoop 8 D c) := by
  have hx : c ^^^ D < 65536 := xor_lt_65536 hc (by omega)
  have hi : (c ^^^ D) % 256 < 256 := Nat.mod_lt _ (by norm_num)
  have hD8 : D >>> 8 = 0 := by rw [Nat.shiftRight_eq_div_pow]; omega
  have hsh : (c ^^^ D) >>> 8 = c >>> 8 := by
    apply Nat.eq_of_testBit_eq
    intro i
    rw [Nat.testBit_shiftRight, Nat.testBit_shiftRight, Nat.testBit_xor,
      Nat.testBit_lt_two_pow (x := D) (i := 8 + i)
        (Nat.lt_of_lt_of_le (show D < 2 ^ 8 from hD) (Nat.pow_le_pow_right (by norm_num) (by omega)))]
    simp
  have hlt : (c >>> 8) ^^^ bitLoop 8 0 ((c ^^^ D) % 256) < 65536 :=
    xor_lt_65536 (by have := shiftRight_eight_lt hc; omega) (bitLoop_lt _ _ _ (by omega))
  unfold tableStep
  rw [and_255, table_entry _ hi]
  show some (((c >>> 8) ^^^ bitLoop 8 0 ((c ^^^ D) % 256)) % 65536) = _
  rw [Nat.mod_eq_of_lt hlt, bitLoop_xor_data 8 hc hD, hD8, Nat.xor_zero, bitLoop_eight_split hx,
    hsh]

theorem tableStep_lt {c D r : Nat} (h : tableStep c D = some r) : r < 65536 := by
  unfold tableStep at h
  split at h
  · injection h with h; rw [← h]; exact Nat.mod_lt _ (by norm_num)
  · cases h

/-! ## The two routines agree -/

theorem loops_agree (n : Nat) : ∀ (data : List Nat) (crc : Nat), crc < 65536 →
    CRC16_Calc_loop n data crc = CRC16_Calc_no_table_loop n data crc := by
  induction n with
  | zero => intro data crc _; rfl
  | succ n ih =>
    intro data crc hc
    match data with
    | [] => rfl
    | [_] => rfl
    | c1 :: c2 :: rest =>
      show (tableStep crc (assembleByte c1 c2)).bind (CRC16_Calc_loop n rest) =
        CRC16_Calc_no_table_loop n rest (bitLoop 8 (assembleByte c1 c2) crc)
      rw [tableStep_eq_bitLoop hc (assembleByte_lt c1 c2)]
      exact ih rest _ (bitLoop_lt _ _ _ hc)

/-- With enough characters in the buffer the loop of `CRC16_Calc_no_table` returns. -/
theorem no_table_loop_returns (n : Nat) : ∀ (data : List Nat) (crc : Nat), crc < 65536 →
    2 * n ≤ data.length → ∃ r, CRC16_Calc_no_table_loop n data crc = some r ∧ r < 65536 := by
  induction n with
  | zero => intro data crc hc _; exact ⟨crc, rfl, hc⟩
  | succ n ih =>
    intro data crc hc hlen
    match data, hlen with
    | [], hlen => exact absurd hlen (by simp)
    | [_], hlen => exact absurd hlen (by simp; omega)
    | c1 :: c2 :: rest, hlen =>
      have hl : 2 * n ≤ rest.length := by simp at hlen; omega
      exact ih rest _ (bitLoop_lt _ _ _ hc) hl

/-! ## Complement and hex digits -/

theorem not16_eq {c : Nat} (hc : c < 65536) : not16 c = 65535 - c := by
  unfold not16 toU16
  omega

theorem hexNibble_hexValue {c : Nat} (h : isHexDigit c) : hexNibble c % 16 = hexValue c := by
  unfold isHexDigit isUpperHexDigit isLowerHexLetter at h
  unfold hexNibble hexValue toU8
  split <;> split <;> (try split) <;> (try split) <;> omega

theorem hexValue_lt (c : Nat) : hexValue c < 16 := by
  unfold hexValue
  split <;> (try split) <;> (try split) <;> omega

/-- A pair of hexadecimal digits, of either case, is assembled to the byte it denotes. -/
theorem assembleByte_hexDigits {c1 c2 : Nat} (h1 : isHexDigit c1) (h2 : isHexDigit c2) :
    assembleByte c1 c2 = 16 * hexValue c1 + hexValue c2 := by
  rw [assembleByte_eq, hexNibble_hexValue h1, hexNibble_hexValue h2]

theorem assembleByte_hexPair : ∀ b < 256,
    assembleByte (hexDigitUpper (b / 16)) (hexDigitUpper (b % 16)) = b ∧
    assembleByte (hexDigitLower (b / 16)) (hexDigitLower (b % 16)) = b := by
  decide!

/-! ## The fused loop as a fold -/

theorem CRC16_Calc_loop_zero (data : List Nat) (crc : Nat) :
    CRC16_Calc_loop 0 data crc = some crc := rfl

theorem CRC16_Calc_loop_succ (n c1 c2 : Nat) (rest : List Nat) (crc : Nat) :
    CRC16_Calc_loop (n + 1) (c1 :: c2 :: rest) crc =
      (tableStep crc (assembleByte c1 c2)).bind (CRC16_Calc_loop n rest) := rfl

theorem tableStep_eq_tableUpdate {c : Nat} (D : Nat) (hc : c < 65536) :
    tableStep c D = some (tableUpdate c D) := by
  have hi : (c ^^^ D) % 256 < 256 := Nat.mod_lt _ (by norm_num)
  have hlt : (c >>> 8) ^^^ bitLoop 8 0 ((c ^^^ D) % 256) < 65536 :=
    xor_lt_65536 (by have := shiftRight_eight_lt hc; omega) (bitLoop_lt _ _ _ (by omega))
  have e := table_entry _ hi
  unfold tableStep tableUpdate
  rw [and_255, e, List.getD_eq_getElem?_getD, e]
  show some (((c >>> 8) ^^^ bitLoop 8 0 ((c ^^^ D) % 256)) % 65536) = _
  rw [Nat.mod_eq_of_lt hlt]
  rfl

theorem decodePairs_length (n : Nat) : ∀ (data : List Nat), 2 * n ≤ data.length →
    (decodePairs n data).length = n := by
  induction n with
  | zero => intro data _; rfl
  | succ n ih =>
    intro data hlen
    match data, hlen with
    | [], hlen => exact absurd hlen (by simp)
    | [_], hlen => exact absurd hlen (by simp; omega)
    | c1 :: c2 :: rest, hlen =>
      have hl : 2 * n ≤ rest.length := by simp at hlen; omega
      show (decodePairs n rest).length + 1 = n + 1
      rw [ih rest hl]

theorem decodePairs_take (n : Nat) : ∀ (data : List Nat),
    decodePairs n (data.take (2 * n)) = decodePairs n data := by
  induction n with
  | zero => intro data; rfl
  | succ n ih =>
    intro data
    match data with
    | [] => rfl
    | [_] => rfl
    | c1 :: c2 :: rest =>
      have e : 2 * (n + 1) = (2 * n + 1) + 1 := by omega
      rw [e, List.take_succ_cons, List.take_succ_cons]
      show assembleByte c1 c2 :: decodePairs n (rest.take (2 * n)) = _
      rw [ih rest]
      rfl

theorem loop_eq_fold (n : Nat) : ∀ (data : List Nat) (crc : Nat), crc < 65536 →
    2 * n ≤ data.length →
    CRC16_Calc_loop n data crc = some ((decodePairs n data).foldl tableUpdate crc) := by
  induction n with
  | zero => intro data crc _ _; rfl
  | succ n ih =>
    intro data crc hc hlen
    match data, hlen with
    | [], hlen => exact absurd hlen (by simp)
    | [_], hlen => exact absurd hlen (by simp; omega)
    | c1 :: c2 :: rest, hlen =>
      have hl : 2 * n ≤ rest.length := by simp at hlen; omega
      have hs := tableStep_eq_tableUpdate (assembleByte c1 c2) hc
      show (tableStep crc (assembleByte c1 c2)).bind (CRC16_Calc_loop n rest) = _
      rw [hs]
      exact ih rest _ (tableStep_lt hs) hl

/-! ## Chunks -/

theorem CRC16_Calc_loop_append (n m : Nat) : ∀ (A B : List Nat) (crc : Nat),
    A.length = 2 * n →
    CRC16_Calc_loop (n + m) (A ++ B) crc =
      (CRC16_Calc_loop n A crc).bind (CRC16_Calc_loop m B) := by
  induction n with
  | zero =>
    intro A B crc hA
    have : A = [] := List.length_eq_zero.mp (by omega)
    subst this
    simp [CRC16_Calc_loop]
  | succ n ih =>
    intro A B crc hA
    match A, hA with
    | [], hA => exact absurd hA (by simp)
    | [_], hA => exact absurd hA (by simp; omega)
    | c1 :: c2 :: rest, hA =>
      have hl : rest.length = 2 * n := by simp at hA; omega
      have e : n + 1 + m = (n + m) + 1 := by omega
      rw [e]
      show (tableStep crc (assembleByte c1 c2)).bind (CRC16_Calc_loop (n + m) (rest ++ B)) =
        ((tableStep crc (assembleByte c1 c2)).bind (CRC16_Calc_loop n rest)).bind
          (CRC16_Calc_loop m B)
      cases tableStep crc (assembleByte c1 c2) with
      | none => rfl
      | some c => exact ih rest B c hl

/-! ## Residue -/

theorem xor_mod_256 (a b : Nat) : (a ^^^ b) % 256 = (a % 256) ^^^ (b % 256) := by
  rw [← and_255, ← and_255, ← and_255, Nat.and_xor_distrib_right]

theorem xor_complement_byte : ∀ l < 256, l ^^^ (255 - l) = 255 := by
  decide!

theorem table_last : CRC16_Table[255]? = some 0x0F78 := by
  decide!

/-- Feeding the low byte of the complemented register leaves the high byte of the
register exclusive-or the last table entry. -/
theorem tableStep_low_complement {c : Nat} (hc : c < 65536) :
    tableStep c ((65535 - c) % 256) = some ((c >>> 8) ^^^ 0x0F78) := by
  have hi : (c ^^^ ((65535 - c) % 256)) % 256 = 255 := by
    rw [xor_mod_256, Nat.mod_mod]
    have : (65535 - c) % 256 = 255 - c % 256 := by omega
    rw [this]
    exact xor_complement_byte _ (Nat.mod_lt _ (by norm_num))
  have hlt : (c >>> 8) ^^^ 0x0F78 < 65536 :=
    xor_lt_65536 (by have := shiftRight_eight_lt hc; omega) (by norm_num)
  unfold tableStep
  rw [and_255, hi, table_last]
  show some (((c >>> 8) ^^^ 0x0F78) % 65536) = _
  rw [Nat.mod_eq_of_lt hlt]

theorem tableStep_high_complement : ∀ h < 256,
    tableStep (h ^^^ 0x0F78) (255 - h) = some 0xF0B8 := by
  decide!

theorem residue_loop {c : Nat} (hc : c < 65536) {a1 a2 b1 b2 : Nat}
    (hlo : assembleByte a1 a2 = not16 c % 256) (hhi : assembleByte b1 b2 = not16 c / 256) :
    CRC16_Calc_loop 2 [a1, a2, b1, b2] c = some 0xF0B8 := by
  have h8 := shiftRight_eight_lt hc
  have e8 : c >>> 8 = c / 256 := by rw [Nat.shiftRight_eq_div_pow]
  rw [not16_eq hc] at hlo hhi
  have hhi2 : assembleByte b1 b2 = 255 - c >>> 8 := by rw [hhi, e8]; omega
  rw [CRC16_Calc_loop_succ, hlo, tableStep_low_complement hc, Option.some_bind,
    CRC16_Calc_loop_succ, hhi2, tableStep_high_complement _ h8, Option.some_bind,
    CRC16_Calc_loop_zero]

theorem decodePairs_hexBytes (n : Nat) : ∀ (s : List Nat), s.length = 2 * n →
    (∀ c ∈ s, isHexDigit c) → decodePairs n s = hexBytes s := by
  induction n with
  | zero =>
    intro s hs _
    have : s = [] := List.length_eq_zero.mp (by omega)
    subst this
    rfl
  | succ n ih =>
    intro s hs hd
    match s, hs, hd with
    | [], hs, _ => exact absurd hs (by simp)
    | [_], hs, _ => exact absurd hs (by simp; omega)
    | c1 :: c2 :: rest, hs, hd =>
      have hl : rest.length = 2 * n := by simp at hs; omega
      have h1 : isHexDigit c1 := hd c1 (by simp)
      have h2 : isHexDigit c2 := hd c2 (by simp)
      have hr : ∀ c ∈ rest, isHexDigit c := fun c hc => hd c (by simp [hc])
      show assembleByte c1 c2 :: decodePairs n rest =
        (16 * hexValue c1 + hexValue c2) :: hexBytes rest
      rw [assembleByte_hexDigits h1 h2, ih rest hl hr]

theorem CRC16_Calc_pair (c1 c2 crc : Nat) :
    CRC16_Calc [c1, c2] 2 crc = tableStep crc (assembleByte c1 c2) := by
  show (tableStep crc (assembleByte c1 c2)).bind (CRC16_Calc_loop 0 []) = _
  cases tableStep crc (assembleByte c1 c2) <;> rfl

/-! ## The register update is injective -/

theorem bitStep_zero_eq_zero {x : Nat} (hx : x < 65536) (h : bitStep 0 x = 0) : x = 0 := by
  rw [bitStep_eq hx, Nat.xor_zero] at h
  have e : x >>> 1 = x / 2 := by rw [Nat.shiftRight_eq_div_pow, pow_one]
  by_cases h1 : x % 2 = 1
  · rw [if_pos h1, Nat.xor_eq_zero, e] at h
    have : CRC16_POLY = 33800 := rfl
    omega
  · rw [if_neg h1, Nat.xor_zero, e] at h
    omega

theorem bitStep_zero_injective {a b : Nat} (ha : a < 65536) (hb : b < 65536)
    (h : bitStep 0 a = bitStep 0 b) : a = b := by
  have hx := bitStep_zero_xor ha hb
  rw [h, Nat.xor_self] at hx
  exact Nat.xor_eq_zero.mp (bitStep_zero_eq_zero (xor_lt_65536 ha hb) hx)

theorem bitLoop_zero_injective (k : Nat) : ∀ {a b : Nat}, a < 65536 → b < 65536 →
    bitLoop k 0 a = bitLoop k 0 b → a = b := by
  induction k with
  | zero => intro a b _ _ h; exact h
  | succ k ih =>
    intro a b ha hb h
    rw [bitLoop_zero_data, bitLoop_zero_data] at h
    exact bitStep_zero_injective ha hb (ih (bitStep_lt 0 a) (bitStep_lt 0 b) h)

/-- The update of the specification is eight passes of the bit loop, data `0`, on the
register exclusive-or the byte. -/
theorem tableUpdate_eq {c D : Nat} (hc : c < 65536) (hD : D < 256) :
    tableUpdate c D = bitLoop 8 0 (c ^^^ D) := by
  have h1 := tableStep_eq_tableUpdate D hc
  have hD8 : D >>> 8 = 0 := by rw [Nat.shiftRight_eq_div_pow]; omega
  rw [tableStep_eq_bitLoop hc hD, bitLoop_xor_data 8 hc hD, hD8, Nat.xor_zero] at h1
  exact (Option.some.inj h1).symm

theorem tableUpdate_lt {c : Nat} (D : Nat) (hc : c < 65536) : tableUpdate c D < 65536 :=
  tableStep_lt (tableStep_eq_tableUpdate D hc)

theorem tableUpdate_injective_register {c1 c2 D : Nat} (h1 : c1 < 65536) (h2 : c2 < 65536)
    (hD : D < 256) (h : tableUpdate c1 D = tableUpdate c2 D) : c1 = c2 := by
  rw [tableUpdate_eq h1 hD, tableUpdate_eq h2 hD] at h
  have hD2 : D < 65536 := by omega
  exact Nat.xor_left_inj.mp
    (bitLoop_zero_injective 8 (xor_lt_65536 h1 hD2) (xor_lt_65536 h2 hD2) h)

theorem tableUpdate_injective_byte {c D1 D2 : Nat} (hc : c < 65536) (h1 : D1 < 256)
    (h2 : D2 < 256) (h : tableUpdate c D1 = tableUpdate c D2) : D1 = D2 := by
  rw [tableUpdate_eq hc h1, tableUpdate_eq hc h2] at h
  exact Nat.xor_right_inj.mp
    (bitLoop_zero_injective 8 (xor_lt_65536 hc (by omega)) (xor_lt_65536 hc (by omega)) h)

theorem foldl_tableUpdate_lt (l : List Nat) : ∀ {c : Nat}, c < 65536 →
    l.foldl tableUpdate c < 65536 := by
  induction l with
  | nil => intro c hc; exact hc
  | cons b t ih => intro c hc; exact ih (tableUpdate_lt b hc)

theorem foldl_tableUpdate_injective (l : List Nat) (hl : ∀ b ∈ l, b < 256) :
    ∀ {c1 c2 : Nat}, c1 < 65536 → c2 < 65536 → c1 ≠ c2 →
    l.foldl tableUpdate c1 ≠ l.foldl tableUpdate c2 := by
  induction l with
  | nil => intro c1 c2 _ _ h; exact h
  | cons b t ih =>
    intro c1 c2 h1 h2 hne
    have hb : b < 256 := hl b (by simp)
    exact ih (fun x hx => hl x (by simp [hx])) (tableUpdate_lt b h1) (tableUpdate_lt b h2)
      (fun h => hne (tableUpdate_injective_register h1 h2 hb h))

/-- Two byte sequences that differ at exactly one position leave different registers. -/
theorem foldl_tableUpdate_one_difference : ∀ (l1 l2 : List Nat) (i c : Nat), c < 65536 →
    (∀ b ∈ l1, b < 256) → (∀ b ∈ l2, b < 256) → l1.length = l2.length →
    l1[i]? ≠ l2[i]? → (∀ j, j ≠ i → l1[j]? = l2[j]?) →
    l1.foldl tableUpdate c ≠ l2.foldl tableUpdate c := by
  intro l1
  induction l1 with
  | nil =>
    intro l2 i c _ _ _ hlen hd _
    have : l2 = [] := List.length_eq_zero.mp hlen.symm
    subst this
    exact absurd rfl hd
  | cons a t1 ih =>
    intro l2 i c hc hl1 hl2 hlen hd hs
    match l2, hl2, hlen, hd, hs with
    | [], _, hlen, _, _ => exact absurd hlen (by simp)
    | b :: t2, hl2, hlen, hd, hs =>
      have ha : a < 256 := hl1 a (by simp)
      have hb : b < 256 := hl2 b (by simp)
      have ht1 : ∀ x ∈ t1, x < 256 := fun x hx => hl1 x (by simp [hx])
      have ht2 : ∀ x ∈ t2, x < 256 := fun x hx => hl2 x (by simp [hx])
      have hlen2 : t1.length = t2.length := by simpa using hlen
      match i, hd, hs with
      | 0, hd, hs =>
        have hab : a ≠ b := by
          intro e
          apply hd
          simp [e]
        have ht : t1 = t2 := by
          apply List.ext_getElem?
          intro j
          have := hs (j + 1) (by omega)
          simpa using this
        subst ht
        show t1.foldl tableUpdate (tableUpdate c a) ≠ t1.foldl tableUpdate (tableUpdate c b)
        exact foldl_tableUpdate_injective t1 ht1 (tableUpdate_lt a hc) (tableUpdate_lt b hc)
          (fun h => hab (tableUpdate_injective_byte hc ha hb h))
      | k + 1, hd, hs =>
        have hab : a = b := by
          have := hs 0 (by omega)
          simpa using this
        subst hab
        show t1.foldl tableUpdate (tableUpdate c a) ≠ t2.foldl tableUpdate (tableUpdate c a)
        apply ih t2 k _ (tableUpdate_lt a hc) ht1 ht2 hlen2
        · simpa using hd
        · intro j hj
          have := hs (j + 1) (by omega)
          simpa using this

theorem decodePairs_lt (n : Nat) : ∀ (data : List Nat), ∀ b ∈ decodePairs n data, b < 256 := by
  induction n with
  | zero => intro data b hb; simp [decodePairs] at hb
  | succ n ih =>
    intro data b hb
    match data, hb with
    | [], hb => simp [decodePairs] at hb
    | [_], hb => simp [decodePairs] at hb
    | c1 :: c2 :: rest, hb =>
      simp only [decodePairs, List.mem_cons] at hb
      rcases hb with hb | hb
      · rw [hb]; exact assembleByte_lt c1 c2
      · exact ih rest b hb

theorem tableUpdate_surjective_register {D r : Nat} (hD : D < 256) (hr : r < 65536) :
    ∃ c, c < 65536 ∧ tableUpdate c D = r := by
  let f : Fin 65536 → Fin 65536 := fun c => ⟨tableUpdate c.1 D, tableUpdate_lt D c.2⟩
  have hf : Function.Injective f := by
    intro a b h
    exact Fin.ext (tableUpdate_injective_register a.2 b.2 hD (congrArg Fin.val h))
  obtain ⟨c, hc⟩ := Finite.surjective_of_injective hf ⟨r, hr⟩
  exact ⟨c.1, c.2, congrArg Fin.val hc⟩

/-! ## Chunks and truncation of the loops -/

theorem CRC16_Calc_no_table_loop_append (n m : Nat) : ∀ (A B : List Nat) (crc : Nat),
    A.length = 2 * n →
    CRC16_Calc_no_table_loop (n + m) (A ++ B) crc =
      (CRC16_Calc_no_table_loop n A crc).bind (CRC16_Calc_no_table_loop m B) := by
  induction n with
  | zero =>
    intro A B crc hA
    have : A = [] := List.length_eq_zero.mp (by omega)
    subst this
    simp [CRC16_Calc_no_table_loop]
  | succ n ih =>
    intro A B crc hA
    match A, hA with
    | [], hA => exact absurd hA (by simp)
    | [_], hA => exact absurd hA (by simp; omega)
    | c1 :: c2 :: rest, hA =>
      have hl : rest.length = 2 * n := by simp at hA; omega
      have e : n + 1 + m = (n + m) + 1 := by omega
      rw [e]
      exact ih rest B (bitLoop 8 (assembleByte c1 c2) crc) hl

theorem CRC16_Calc_loop_take (n : Nat) : ∀ (data : List Nat) (crc : Nat),
    CRC16_Calc_loop n (data.take (2 * n)) crc = CRC16_Calc_loop n data crc := by
  induction n with
  | zero => intro data crc; rfl
  | succ n ih =>
    intro data crc
    match data with
    | [] => rfl
    | [_] => rfl
    | c1 :: c2 :: rest =>
      have e : 2 * (n + 1) = (2 * n + 1) + 1 := by omega
      rw [e, List.take_succ_cons, List.take_succ_cons, CRC16_Calc_loop_succ,
        CRC16_Calc_loop_succ]
      cases tableStep crc (assembleByte c1 c2) with
      | none => rfl
      | some c => exact ih rest c

theorem CRC16_Calc_no_table_loop_take (n : Nat) : ∀ (data : List Nat) (crc : Nat),
    CRC16_Calc_no_table_loop n (data.take (2 * n)) crc = CRC16_Calc_no_table_loop n data crc := by
  induction n with
  | zero => intro data crc; rfl
  | succ n ih =>
    intro data crc
    match data with
    | [] => rfl
    | [_] => rfl
    | c1 :: c2 :: rest =>
      have e : 2 * (n + 1) = (2 * n + 1) + 1 := by omega
      rw [e, List.take_succ_cons, List.take_succ_cons]
      exact ih rest (bitLoop 8 (assembleByte c1 c2) crc)

theorem specNibble_eq {c : Nat} (hc : c < 256) : hexNibble c = specNibble c := by
  unfold hexNibble specNibble toU8
  split <;> omega

theorem table_length : CRC16_Table.length = 256 := by
  decide!

/-! ## The claims -/

/-- C1: the table-driven and the bitwise routine agree on every input. For every buffer
`data`, every 16-bit length `L` with at least `2 * (L / 2)` characters in the buffer (of
any byte values) and every 16-bit `initVal`, both `CRC16_Calc` and `CRC16_Calc_no_table`
return, and they return the same register. -/
theorem CRC16_Calc_eq_CRC16_Calc_no_table (data : List Nat) (L initVal : Nat)
    (hL : L < 65536) (hinit : initVal < 65536) (hbuf : 2 * (L / 2) ≤ data.length) :
    ∃ r, CRC16_Calc data L initVal = some r ∧ CRC16_Calc_no_table data L initVal = some r := by
  have _ := hL
  obtain ⟨r, hr, _⟩ := no_table_loop_returns (L / 2) data initVal hinit hbuf
  refine ⟨r, ?_, hr⟩
  unfold CRC16_Calc
  rw [loops_agree (L / 2) data initVal hinit]
  exact hr

/-- Witness of C1: the frame `"4142"` with length 4 and initial value `0xFFFF`. -/
theorem CRC16_Calc_eq_CRC16_Calc_no_table_witness :
    ∃ r, CRC16_Calc [52, 49, 52, 50] 4 0xFFFF = some r ∧
      CRC16_Calc_no_table [52, 49, 52, 50] 4 0xFFFF = some r :=
  CRC16_Calc_eq_CRC16_Calc_no_table [52, 49, 52, 50] 4 0xFFFF (by decide) (by decide)
    (by decide)

/-- C2, as stated, fails on the first sample frame: the complement of
`CRC16_Calc(payload[0], 84, 0xFFFF)` is `0x8538`, not `0x3885`. -/
theorem sample_checksum_0_ne_documented :
    (CRC16_Calc (payload.getD 0 []) 84 CRC16_INIT_VALUE).map not16 = some 0x8538 ∧
      (CRC16_Calc (payload.getD 0 []) 84 CRC16_INIT_VALUE).map not16 ≠ some 0x3885 := by
  decide!

/-- C2, amended: the nine checksums `main` computes with `CRC16_Calc` are `0x8538`,
`0xabc1`, `0xacb7`, `0xafe2`, `0x9e22`, `0xf302`, `0xeea0`, `0x4fb6` and, for the long
payload, `0x67f6`; `CRC16_Calc_no_table` gives the same nine values; every `payload[i]`
has `strlen` 84 and `long_payload` has `strlen` 96; and these values with their two bytes
exchanged are the documented `3885`, `c1ab`, `b7ac`, `e2af`, `229e`, `02f3`, `a0ee`,
`b64f`, `f667`. -/
theorem sample_checksums :
    main_table = [some 0x8538, some 0xabc1, some 0xacb7, some 0xafe2, some 0x9e22,
      some 0xf302, some 0xeea0, some 0x4fb6, some 0x67f6] ∧
    main_no_table = main_table ∧
    payload.map strlen = [84, 84, 84, 84, 84, 84, 84, 84] ∧
    strlen long_payload = 96 ∧
    main_table.map (Option.map swapBytes) = [some 0x3885, some 0xc1ab, some 0xb7ac,
      some 0xe2af, some 0x229e, some 0x02f3, some 0xa0ee, some 0xb64f, some 0xf667] := by
  decide!

/-- C3, as stated, fails on the first listed frame: over the 82 characters
`0327...c6df` the complement of `CRC16_Calc` (init `0xFFFF`) is `0x2b77`, not `0x3885`. -/
theorem spec_frame_1_ne_documented :
    (CRC16_Calc spec_frame_1 82 0xFFFF).map not16 = some 0x2b77 ∧
      (CRC16_Calc spec_frame_1 82 0xFFFF).map not16 ≠ some 0x3885 := by
  decide!

/-- C3, amended: with the leading byte `82` of the source's frames put back (84, 84 and
96 characters, which are `payload[0]`, `payload[1]` and `long_payload`), init `0xFFFF` and
the final complement, `CRC16_Calc` and `CRC16_Calc_no_table` give `0x8538`, `0xabc1` and
`0x67f6`: the listed `0x3885`, `0xc1ab`, `0xf667` with their two bytes exchanged. -/
theorem known_vectors :
    (56 :: 50 :: spec_frame_1 = payload.getD 0 [] ∧
      56 :: 50 :: spec_frame_2 = payload.getD 1 [] ∧
      56 :: 50 :: spec_long_frame = long_payload) ∧
    ((CRC16_Calc (56 :: 50 :: spec_frame_1) 84 0xFFFF).map not16 = some 0x8538 ∧
      (CRC16_Calc (56 :: 50 :: spec_frame_2) 84 0xFFFF).map not16 = some 0xabc1 ∧
      (CRC16_Calc (56 :: 50 :: spec_long_frame) 96 0xFFFF).map not16 = some 0x67f6) ∧
    ((CRC16_Calc_no_table (56 :: 50 :: spec_frame_1) 84 0xFFFF).map not16 = some 0x8538 ∧
      (CRC16_Calc_no_table (56 :: 50 :: spec_frame_2) 84 0xFFFF).map not16 = some 0xabc1 ∧
      (CRC16_Calc_no_table (56 :: 50 :: spec_long_frame) 96 0xFFFF).map not16
        = some 0x67f6) ∧
    (swapBytes 0x8538 = 0x3885 ∧ swapBytes 0xabc1 = 0xc1ab ∧ swapBytes 0x67f6 = 0xf667) := by
  decide!

/-- C4: table self-consistency. For every `i` in `0..255`, `CRC16_Table[i]` is the register
after the eight passes of the bit loop on byte `i` from register `0`, and it is
`CRC16_Calc_no_table(h, 2, 0)` for `h` the two hex digits of `i` (upper or lower case). -/
theorem CRC16_Table_self_consistent (i : Nat) (hi : i < 256) :
    CRC16_Table[i]? = some (bitLoop 8 i 0) ∧
    CRC16_Calc_no_table (hexPairUpper i) 2 0 = CRC16_Table[i]? ∧
    CRC16_Calc_no_table (hexPairLower i) 2 0 = CRC16_Table[i]? := by
  have h : ∀ j < 256, CRC16_Table[j]? = some (bitLoop 8 j 0) ∧
      CRC16_Calc_no_table (hexPairUpper j) 2 0 = CRC16_Table[j]? ∧
      CRC16_Calc_no_table (hexPairLower j) 2 0 = CRC16_Table[j]? := by
    decide!
  exact h i hi

/-- Witness of C4: the entry `0x8408` at index `0x80`. -/
theorem CRC16_Table_self_consistent_witness :
    CRC16_Table[128]? = some (bitLoop 8 128 0) ∧
    CRC16_Calc_no_table (hexPairUpper 128) 2 0 = CRC16_Table[128]? ∧
    CRC16_Calc_no_table (hexPairLower 128) 2 0 = CRC16_Table[128]? :=
  CRC16_Table_self_consistent 128 (by decide)

/-- C5: with length `0` both routines return the initial value unchanged, whatever the
buffer. -/
theorem CRC16_Calc_length_zero (data : List Nat) (initVal : Nat) :
    CRC16_Calc data 0 initVal = some initVal ∧
      CRC16_Calc_no_table data 0 initVal = some initVal :=
  ⟨rfl, rfl⟩

/-- C6: hex decode correctness. For characters `c1`, `c2` in `'0'..'9'` or `'A'..'F'` the byte
`Data` assembled from the pair is `16 * v(c1) + v(c2)`, and this is the byte both routines
feed to their register update; a string `s` of such characters of even length decodes to
the `s.length / 2` bytes it denotes; `"4142"` with length 4 decodes to `[0x41, 0x42]`. -/
theorem hex_decode_correct (c1 c2 initVal : Nat) (s : List Nat)
    (h1 : isUpperHexDigit c1) (h2 : isUpperHexDigit c2)
    (hs : ∀ c ∈ s, isUpperHexDigit c) (heven : s.length % 2 = 0) :
    assembleByte c1 c2 = 16 * hexValue c1 + hexValue c2 ∧
    CRC16_Calc [c1, c2] 2 initVal = tableStep initVal (16 * hexValue c1 + hexValue c2) ∧
    CRC16_Calc_no_table [c1, c2] 2 initVal
      = some (bitLoop 8 (16 * hexValue c1 + hexValue c2) initVal) ∧
    hex_decode s s.length = hexBytes s ∧
    (hex_decode s s.length).length = s.length / 2 ∧
    hex_decode [52, 49, 52, 50] 4 = [0x41, 0x42] := by
  have e := assembleByte_hexDigits (Or.inl h1) (Or.inl h2)
  have hl : s.length = 2 * (s.length / 2) := by omega
  refine ⟨e, ?_, ?_, ?_, ?_, by decide⟩
  · rw [CRC16_Calc_pair, e]
  · show some (bitLoop 8 (assembleByte c1 c2) initVal) = _
    rw [e]
  · exact decodePairs_hexBytes (s.length / 2) s hl (fun c hc => Or.inl (hs c hc))
  · exact decodePairs_length (s.length / 2) s (by omega)

/-- Witness of C6: the pair `"AF"` and the string `"4142"`. -/
theorem hex_decode_correct_witness :
    assembleByte 65 70 = 16 * hexValue 65 + hexValue 70 ∧
    CRC16_Calc [65, 70] 2 0xFFFF = tableStep 0xFFFF (16 * hexValue 65 + hexValue 70) ∧
    CRC16_Calc_no_table [65, 70] 2 0xFFFF
      = some (bitLoop 8 (16 * hexValue 65 + hexValue 70) 0xFFFF) ∧
    hex_decode [52, 49, 52, 50] [52, 49, 52, 50].length = hexBytes [52, 49, 52, 50] ∧
    (hex_decode [52, 49, 52, 50] [52, 49, 52, 50].length).length
      = [52, 49, 52, 50].length / 2 ∧
    hex_decode [52, 49, 52, 50] 4 = [0x41, 0x42] :=
  hex_decode_correct 65 70 0xFFFF [52, 49, 52, 50] (by decide) (by decide) (by decide)
    (by decide)

/-- C7, as stated, fails: there is no pair of hex-digit characters containing a lowercase
letter `'a'..'f'` whose assembled byte differs from the byte the pair denotes. -/
theorem no_lowercase_pair_misdecoded :
    ¬ ∃ c1 c2 : Nat, isHexDigit c1 ∧ isHexDigit c2 ∧
      (isLowerHexLetter c1 ∨ isLowerHexLetter c2) ∧
      assembleByte c1 c2 ≠ 16 * hexValue c1 + hexValue c2 := by
  rintro ⟨c1, c2, h1, h2, _, hne⟩
  exact hne (assembleByte_hexDigits h1 h2)

/-- C7, amended: the hex decoding is tolerant of lowercase `'a'..'f'`. A lowercase letter
is taken by the branch `c >= 'A'` and gives `v(c) + 32`, which the masks reduce to the
nibble `v(c)`; so every pair of hex-digit characters containing a lowercase letter is
assembled to the byte the pair denotes in hexadecimal. -/
theorem lowercase_pair_decoded (c1 c2 : Nat) (h1 : isHexDigit c1) (h2 : isHexDigit c2)
    (hlow : isLowerHexLetter c1 ∨ isLowerHexLetter c2) :
    assembleByte c1 c2 = 16 * hexValue c1 + hexValue c2 ∧
    (isLowerHexLetter c1 → hexNibble c1 = hexValue c1 + 32) ∧
    (isLowerHexLetter c2 → hexNibble c2 = hexValue c2 + 32) := by
  have _ := hlow
  have key : ∀ c, isLowerHexLetter c → hexNibble c = hexValue c + 32 := by
    intro c hc
    unfold isLowerHexLetter at hc
    unfold hexNibble hexValue toU8
    split <;> split <;> (try split) <;> omega
  exact ⟨assembleByte_hexDigits h1 h2, key c1, key c2⟩

/-- Witness of C7 amended: the pair `"af"` is assembled to `0xAF`. -/
theorem lowercase_pair_decoded_witness :
    assembleByte 97 102 = 16 * hexValue 97 + hexValue 102 ∧
    (isLowerHexLetter 97 → hexNibble 97 = hexValue 97 + 32) ∧
    (isLowerHexLetter 102 → hexNibble 102 = hexValue 102 + 32) :=
  lowercase_pair_decoded 97 102 (Or.inr (by decide)) (Or.inr (by decide))
    (Or.inl (by decide))

/-- C8: the fused loop of `CRC16_Calc` is hex decoding followed by the table update. For a
16-bit length `L`, a 16-bit `initVal` and a buffer of at least `2 * (L / 2)` characters,
`CRC16_Calc` returns the left-to-right fold, from `initVal`, of
`crc := (crc >> 8) XOR CRC16_Table[(crc XOR b) & 0xFF]` over the decoded bytes, which are
`L / 2` in number and are decoded from the first `2 * (L / 2)` characters. -/
theorem CRC16_Calc_eq_fold (data : List Nat) (L initVal : Nat)
    (hL : L < 65536) (hinit : initVal < 65536) (hbuf : 2 * (L / 2) ≤ data.length) :
    CRC16_Calc data L initVal = some (crc16_table (hex_decode data L) initVal) ∧
    (hex_decode data L).length = L / 2 ∧
    hex_decode data L = hex_decode (data.take (2 * (L / 2))) L := by
  have _ := hL
  exact ⟨loop_eq_fold (L / 2) data initVal hinit hbuf, decodePairs_length (L / 2) data hbuf,
    (decodePairs_take (L / 2) data).symm⟩

/-- Witness of C8: the frame `"4142"` followed by a character that is not read. -/
theorem CRC16_Calc_eq_fold_witness :
    CRC16_Calc [52, 49, 52, 50, 0] 4 0xFFFF
      = some (crc16_table (hex_decode [52, 49, 52, 50, 0] 4) 0xFFFF) ∧
    (hex_decode [52, 49, 52, 50, 0] 4).length = 4 / 2 ∧
    hex_decode [52, 49, 52, 50, 0] 4 = hex_decode ([52, 49, 52, 50, 0].take (2 * (4 / 2))) 4 :=
  CRC16_Calc_eq_fold [52, 49, 52, 50, 0] 4 0xFFFF (by decide) (by decide) (by decide)

/-- C9: the routines compute the reflected CCITT CRC with the X-25 parameters. On the hex
encoding of the ASCII string `123456789` (18 characters), from `0xFFFF` and with the final
complement, `CRC16_Calc` and `CRC16_Calc_no_table` give the standard check value
`0x906E`. -/
theorem check_value :
    (CRC16_Calc check_input 18 CRC16_INIT_VALUE).map not16 = some 0x906E ∧
    (CRC16_Calc_no_table check_input 18 CRC16_INIT_VALUE).map not16 = some 0x906E ∧
    hex_decode check_input 18 = [49, 50, 51, 52, 53, 54, 55, 56, 57] ∧
    CRC16_POLY = 0x8408 ∧ CRC16_INIT_VALUE = 0xFFFF := by
  decide!

/-- C10: receiver-side residue. For a buffer `data` of even length `L` with `L + 4 ≤ 65535`
(of hex digits or any other byte values) and a 16-bit `initVal`, `CRC16_Calc` returns a
register `c`; and with `f` the complement of `c`, the frame followed by the two hex digits
of the low byte of `f` and then the two hex digits of the high byte of `f` (upper or lower
case) leaves the register at `0xF0B8`. -/
theorem CRC16_Calc_residue (data : List Nat) (L initVal : Nat)
    (hlen : data.length = L) (heven : L % 2 = 0) (hL : L + 4 ≤ 65535)
    (hinit : initVal < 65536) :
    ∃ c, CRC16_Calc data L initVal = some c ∧
      CRC16_Calc (data ++ hexPairUpper (not16 c % 256) ++ hexPairUpper (not16 c / 256))
        (L + 4) initVal = some 0xF0B8 ∧
      CRC16_Calc (data ++ hexPairLower (not16 c % 256) ++ hexPairLower (not16 c / 256))
        (L + 4) initVal = some 0xF0B8 := by
  have _ := hL
  have hd : data.length = 2 * (L / 2) := by omega
  obtain ⟨c, hc, hclt⟩ := no_table_loop_returns (L / 2) data initVal hinit (by omega)
  rw [← loops_agree (L / 2) data initVal hinit] at hc
  have hn : not16 c < 65536 := by rw [not16_eq hclt]; omega
  have hlo : not16 c % 256 < 256 := Nat.mod_lt _ (by norm_num)
  have hhi : not16 c / 256 < 256 := by omega
  have e : (L + 4) / 2 = L / 2 + 2 := by omega
  refine ⟨c, hc, ?_, ?_⟩
  · unfold CRC16_Calc
    rw [e, List.append_assoc, CRC16_Calc_loop_append (L / 2) 2 data _ initVal hd, hc,
      Option.some_bind]
    exact residue_loop hclt (assembleByte_hexPair _ hlo).1 (assembleByte_hexPair _ hhi).1
  · unfold CRC16_Calc
    rw [e, List.append_assoc, CRC16_Calc_loop_append (L / 2) 2 data _ initVal hd, hc,
      Option.some_bind]
    exact residue_loop hclt (assembleByte_hexPair _ hlo).2 (assembleByte_hexPair _ hhi).2

/-- Witness of C10: the frame `"4142"` from the initial value `0xFFFF`. -/
theorem CRC16_Calc_residue_witness :
    ∃ c, CRC16_Calc [52, 49, 52, 50] 4 0xFFFF = some c ∧
      CRC16_Calc ([52, 49, 52, 50] ++ hexPairUpper (not16 c % 256)
        ++ hexPairUpper (not16 c / 256)) (4 + 4) 0xFFFF = some 0xF0B8 ∧
      CRC16_Calc ([52, 49, 52, 50] ++ hexPairLower (not16 c % 256)
        ++ hexPairLower (not16 c / 256)) (4 + 4) 0xFFFF = some 0xF0B8 :=
  CRC16_Calc_residue [52, 49, 52, 50] 4 0xFFFF (by decide) (by decide) (by decide)
    (by decide)

/-- C11: single-byte errors are always detected. For a 16-bit `initVal` and two character
strings of the same even length `L` whose decoded byte sequences differ at position `i`
and nowhere else, both calls of `CRC16_Calc` return and the registers differ. The
per-byte update is injective in the byte for a fixed register, and injective and
surjective (on 16-bit values) in the register for a fixed byte. -/
theorem single_byte_error_detected (s1 s2 : List Nat) (L initVal i : Nat)
    (hL : L < 65536) (heven : L % 2 = 0) (hinit : initVal < 65536)
    (h1 : s1.length = L) (h2 : s2.length = L)
    (hdiff : (hex_decode s1 L)[i]? ≠ (hex_decode s2 L)[i]?)
    (hsame : ∀ j, j ≠ i → (hex_decode s1 L)[j]? = (hex_decode s2 L)[j]?) :
    (∃ r1 r2, CRC16_Calc s1 L initVal = some r1 ∧ CRC16_Calc s2 L initVal = some r2 ∧
      r1 ≠ r2) ∧
    (∀ c D1 D2, c < 65536 → D1 < 256 → D2 < 256 →
      tableStep c D1 = tableStep c D2 → D1 = D2) ∧
    (∀ c1 c2 D, c1 < 65536 → c2 < 65536 → D < 256 →
      tableStep c1 D = tableStep c2 D → c1 = c2) ∧
    (∀ D r, D < 256 → r < 65536 → ∃ c, c < 65536 ∧ tableStep c D = some r) := by
  have _ := hL
  have _ := heven
  have hb1 : 2 * (L / 2) ≤ s1.length := by omega
  have hb2 : 2 * (L / 2) ≤ s2.length := by omega
  have hlen : (decodePairs (L / 2) s1).length = (decodePairs (L / 2) s2).length := by
    rw [decodePairs_length _ _ hb1, decodePairs_length _ _ hb2]
  refine ⟨⟨_, _, loop_eq_fold (L / 2) s1 initVal hinit hb1,
    loop_eq_fold (L / 2) s2 initVal hinit hb2, ?_⟩, ?_, ?_, ?_⟩
  · exact foldl_tableUpdate_one_difference _ _ i initVal hinit (decodePairs_lt _ _)
      (decodePairs_lt _ _) hlen hdiff hsame
  · intro c D1 D2 hc hD1 hD2 h
    rw [tableStep_eq_tableUpdate D1 hc, tableStep_eq_tableUpdate D2 hc] at h
    exact tableUpdate_injective_byte hc hD1 hD2 (Option.some.inj h)
  · intro c1 c2 D hc1 hc2 hD h
    rw [tableStep_eq_tableUpdate D hc1, tableStep_eq_tableUpdate D hc2] at h
    exact tableUpdate_injective_register hc1 hc2 hD (Option.some.inj h)
  · intro D r hD hr
    obtain ⟨c, hc, e⟩ := tableUpdate_surjective_register hD hr
    exact ⟨c, hc, by rw [tableStep_eq_tableUpdate D hc, e]⟩

/-- Witness of C11: the frames `"4142"` and `"4143"`, which differ in their second byte. -/
theorem single_byte_error_detected_witness :
    (∃ r1 r2, CRC16_Calc [52, 49, 52, 50] 4 0xFFFF = some r1 ∧
      CRC16_Calc [52, 49, 52, 51] 4 0xFFFF = some r2 ∧ r1 ≠ r2) ∧
    (∀ c D1 D2, c < 65536 → D1 < 256 → D2 < 256 →
      tableStep c D1 = tableStep c D2 → D1 = D2) ∧
    (∀ c1 c2 D, c1 < 65536 → c2 < 65536 → D < 256 →
      tableStep c1 D = tableStep c2 D → c1 = c2) ∧
    (∀ D r, D < 256 → r < 65536 → ∃ c, c < 65536 ∧ tableStep c D = some r) :=
  single_byte_error_detected [52, 49, 52, 50] [52, 49, 52, 51] 4 0xFFFF 1 (by decide)
    (by decide) (by decide) (by decide) (by decide) (by decide)
    (by
      have e1 : hex_decode [52, 49, 52, 50] 4 = [65, 66] := by decide
      have e2 : hex_decode [52, 49, 52, 51] 4 = [65, 67] := by decide
      intro j hj
      rw [e1, e2]
      match j, hj with
      | 0, _ => rfl
      | 1, h => exact absurd rfl h
      | _ + 2, _ => rfl)

/-- C12: the register can be threaded across chunks. For `A` of even length, `B` of any
length, `|A| + |B| ≤ 65535` and a 16-bit `initVal`, `CRC16_Calc` on `A` returns a register
`c`, on `B` from `c` it returns `r`, and on `A ++ B` from `initVal` it returns the same `r`;
likewise for `CRC16_Calc_no_table`, with the same `c` and `r`. -/
theorem CRC16_Calc_chunks (A B : List Nat) (initVal : Nat) (hA : A.length % 2 = 0)
    (hlen : A.length + B.length ≤ 65535) (hinit : initVal < 65536) :
    ∃ c r, CRC16_Calc A A.length initVal = some c ∧ CRC16_Calc B B.length c = some r ∧
      CRC16_Calc (A ++ B) (A.length + B.length) initVal = some r ∧
      CRC16_Calc_no_table A A.length initVal = some c ∧
      CRC16_Calc_no_table B B.length c = some r ∧
      CRC16_Calc_no_table (A ++ B) (A.length + B.length) initVal = some r := by
  have _ := hlen
  have hA2 : A.length = 2 * (A.length / 2) := by omega
  have e : (A.length + B.length) / 2 = A.length / 2 + B.length / 2 := by omega
  obtain ⟨c, hc, hclt⟩ := no_table_loop_returns (A.length / 2) A initVal hinit (by omega)
  obtain ⟨r, hr, _⟩ := no_table_loop_returns (B.length / 2) B c hclt (by omega)
  have hc2 := hc
  have hr2 := hr
  rw [← loops_agree _ A initVal hinit] at hc2
  rw [← loops_agree _ B c hclt] at hr2
  refine ⟨c, r, hc2, hr2, ?_, hc, hr, ?_⟩
  · unfold CRC16_Calc
    rw [e, CRC16_Calc_loop_append _ _ A B initVal hA2, hc2, Option.some_bind]
    exact hr2
  · unfold CRC16_Calc_no_table
    rw [e, CRC16_Calc_no_table_loop_append _ _ A B initVal hA2, hc, Option.some_bind]
    exact hr

/-- Witness of C12: the chunks `"41"` and `"423"` (the second of odd length). -/
theorem CRC16_Calc_chunks_witness :
    ∃ c r, CRC16_Calc [52, 49] [52, 49].length 0xFFFF = some c ∧
      CRC16_Calc [52, 50, 51] [52, 50, 51].length c = some r ∧
      CRC16_Calc ([52, 49] ++ [52, 50, 51]) ([52, 49].length + [52, 50, 51].length) 0xFFFF
        = some r ∧
      CRC16_Calc_no_table [52, 49] [52, 49].length 0xFFFF = some c ∧
      CRC16_Calc_no_table [52, 50, 51] [52, 50, 51].length c = some r ∧
      CRC16_Calc_no_table ([52, 49] ++ [52, 50, 51])
        ([52, 49].length + [52, 50, 51].length) 0xFFFF = some r :=
  CRC16_Calc_chunks [52, 49] [52, 50, 51] 0xFFFF (by decide) (by decide) (by decide)

/-- C13: an odd length is truncated. For an odd `L` (`1 ≤ L ≤ 65535`), a 16-bit `initVal` and
a buffer with at least `L - 1` characters, `L / 2` pairs are consumed, `CRC16_Calc` with
length `L` returns what it returns with length `L - 1`, and so does every buffer with the
same first `L - 1` characters, whatever its character at position `L - 1`; likewise for
`CRC16_Calc_no_table`. -/
theorem odd_length_truncated (data : List Nat) (L initVal : Nat) (hodd : L % 2 = 1)
    (hL : L ≤ 65535) (hinit : initVal < 65536) (hbuf : L - 1 ≤ data.length) :
    ∃ r, CRC16_Calc data L initVal = some r ∧ CRC16_Calc data (L - 1) initVal = some r ∧
      CRC16_Calc_no_table data L initVal = some r ∧
      CRC16_Calc_no_table data (L - 1) initVal = some r ∧
      (hex_decode data L).length = L / 2 ∧
      ∀ data2 : List Nat, data2.take (L - 1) = data.take (L - 1) →
        CRC16_Calc data2 L initVal = some r ∧ CRC16_Calc_no_table data2 L initVal = some r := by
  have _ := hL
  have e : (L - 1) / 2 = L / 2 := by omega
  have e2 : 2 * (L / 2) = L - 1 := by omega
  obtain ⟨r, hr, _⟩ := no_table_loop_returns (L / 2) data initVal hinit (by omega)
  have hr2 := hr
  rw [← loops_agree _ data initVal hinit] at hr2
  refine ⟨r, hr2, ?_, hr, ?_, decodePairs_length (L / 2) data (by omega), ?_⟩
  · unfold CRC16_Calc; rw [e]; exact hr2
  · unfold CRC16_Calc_no_table; rw [e]; exact hr
  · intro data2 h
    constructor
    · unfold CRC16_Calc
      rw [← CRC16_Calc_loop_take, e2, h, ← e2, CRC16_Calc_loop_take]
      exact hr2
    · unfold CRC16_Calc_no_table
      rw [← CRC16_Calc_no_table_loop_take, e2, h, ← e2, CRC16_Calc_no_table_loop_take]
      exact hr

/-- Witness of C13: the buffer `"41423"` with length 5. -/
theorem odd_length_truncated_witness :
    ∃ r, CRC16_Calc [52, 49, 52, 50, 51] 5 0xFFFF = some r ∧
      CRC16_Calc [52, 49, 52, 50, 51] (5 - 1) 0xFFFF = some r ∧
      CRC16_Calc_no_table [52, 49, 52, 50, 51] 5 0xFFFF = some r ∧
      CRC16_Calc_no_table [52, 49, 52, 50, 51] (5 - 1) 0xFFFF = some r ∧
      (hex_decode [52, 49, 52, 50, 51] 5).length = 5 / 2 ∧
      ∀ data2 : List Nat, data2.take (5 - 1) = [52, 49, 52, 50, 51].take (5 - 1) →
        CRC16_Calc data2 5 0xFFFF = some r ∧ CRC16_Calc_no_table data2 5 0xFFFF = some r :=
  odd_length_truncated [52, 49, 52, 50, 51] 5 0xFFFF (by decide) (by decide) (by decide)
    (by decide)

/-- C14: no character is rejected, and malformed digits alias valid ones. For byte values
`c1`, `c2` in `0..255` the assembled byte is `16 * (n(c1) mod 16) + (n(c2) mod 16)`, with
`n(c) = c - 'A' + 10` if `c >= 'A'` and `n(c) = c - '0'` otherwise, modulo 256; both
routines return a register for the pair, no failure is signalled; the pair `"0G"` is
assembled to `0x00` like `"00"`, and gives the same result for every `initVal`. -/
theorem malformed_digits_alias (c1 c2 initVal : Nat) (h1 : c1 < 256) (h2 : c2 < 256)
    (hinit : initVal < 65536) :
    assembleByte c1 c2 = 16 * (specNibble c1 % 16) + specNibble c2 % 16 ∧
    (∃ r, CRC16_Calc [c1, c2] 2 initVal = some r ∧
      CRC16_Calc_no_table [c1, c2] 2 initVal = some r) ∧
    assembleByte 48 71 = 0x00 ∧ assembleByte 48 48 = 0x00 ∧
    (∃ r, CRC16_Calc [48, 71] 2 initVal = some r ∧ CRC16_Calc [48, 48] 2 initVal = some r ∧
      CRC16_Calc_no_table [48, 71] 2 initVal = some r ∧
      CRC16_Calc_no_table [48, 48] 2 initVal = some r) := by
  have hG : assembleByte 48 71 = 0 := by decide
  have h0 : assembleByte 48 48 = 0 := by decide
  have pair : ∀ a b : Nat, ∃ r, CRC16_Calc [a, b] 2 initVal = some r ∧
      CRC16_Calc_no_table [a, b] 2 initVal = some r ∧
      r = bitLoop 8 (assembleByte a b) initVal := by
    intro a b
    refine ⟨bitLoop 8 (assembleByte a b) initVal, ?_, rfl, rfl⟩
    rw [CRC16_Calc_pair, tableStep_eq_bitLoop hinit (assembleByte_lt a b)]
  refine ⟨?_, ?_, hG, h0, ?_⟩
  · rw [assembleByte_eq, specNibble_eq h1, specNibble_eq h2]
  · obtain ⟨r, hr1, hr2, _⟩ := pair c1 c2
    exact ⟨r, hr1, hr2⟩
  · obtain ⟨r, hr1, hr2, hr⟩ := pair 48 71
    obtain ⟨r0, hs1, hs2, hs⟩ := pair 48 48
    have e : r0 = r := by rw [hs, hr, hG, h0]
    rw [e] at hs1 hs2
    exact ⟨r, hr1, hs1, hr2, hs2⟩

/-- Witness of C14: the pair `"0G"` from the initial value `0xFFFF`. -/
theorem malformed_digits_alias_witness :
    assembleByte 48 71 = 16 * (specNibble 48 % 16) + specNibble 71 % 16 ∧
    (∃ r, CRC16_Calc [48, 71] 2 0xFFFF = some r ∧
      CRC16_Calc_no_table [48, 71] 2 0xFFFF = some r) ∧
    assembleByte 48 71 = 0x00 ∧ assembleByte 48 48 = 0x00 ∧
    (∃ r, CRC16_Calc [48, 71] 2 0xFFFF = some r ∧ CRC16_Calc [48, 48] 2 0xFFFF = some r ∧
      CRC16_Calc_no_table [48, 71] 2 0xFFFF = some r ∧
      CRC16_Calc_no_table [48, 48] 2 0xFFFF = some r) :=
  malformed_digits_alias 48 71 0xFFFF (by decide) (by decide) (by decide)

/-- C15: `CRC16_original` does not compute the bitwise reference CRC. On the single raw
byte `0x01` from register `0` it returns `0`, while the bit loop of `CRC16_Calc_no_table`
reaches `0x1189` on that byte (as `CRC16_Calc_no_table` does on its hex encoding `"01"`);
so there are a byte sequence and an initial value on which the two differ. -/
theorem CRC16_original_differs :
    CRC16_original [1] 1 0 = some 0 ∧
    crc16_bitwise [1] 0 = 0x1189 ∧
    hex_decode [48, 49] 2 = [1] ∧
    CRC16_Calc_no_table [48, 49] 2 0 = some (crc16_bitwise [1] 0) ∧
    ∃ (B : List Nat) (initVal : Nat), (∀ b ∈ B, b < 256) ∧ initVal < 65536 ∧
      CRC16_original B B.length initVal ≠ some (crc16_bitwise B initVal) := by
  refine ⟨by decide, by decide, by decide, by decide, [1], 0, ?_, by decide, by decide⟩
  intro b hb
  rw [List.mem_singleton] at hb
  omega

/-- C16: the table lookup never goes out of bounds. `CRC16_Table` has exactly 256 entries,
and for every register `crc` and byte `Data` the index `(crc ^ Data) & 0x00FF` is below
256, so the lookup of line 140 hits an entry and the update returns a register. -/
theorem table_lookup_in_bounds (crc Data : Nat) :
    CRC16_Table.length = 256 ∧
    (crc ^^^ Data) &&& 0x00FF < 256 ∧
    (∃ t, CRC16_Table[(crc ^^^ Data) &&& 0x00FF]? = some t) ∧
    ∃ r, tableStep crc Data = some r := by
  have hi : (crc ^^^ Data) % 256 < 256 := Nat.mod_lt _ (by norm_num)
  have e := table_entry _ hi
  refine ⟨table_length, ?_, ?_, ?_⟩
  · rw [and_255]; exact hi
  · rw [and_255]; exact ⟨_, e⟩
  · unfold tableStep
    rw [and_255, e]
    exact ⟨_, rfl⟩

end CRC16
